import Mathlib

/-!
Verification development for `static/js/search.js`: client-side full-text
search with tokenization, snippet extraction, HTML escaping, highlighting,
and result ranking/rendering.

Strings are modelled shallowly as lists of Unicode code points (`List Nat`);
JavaScript string operations (`toLowerCase` restricted to the ASCII simple
case mapping, `slice`, `indexOf`, `split`, `trim`, per-character `replace`)
become the corresponding list functions.
-/

namespace SearchJs

/-- A JavaScript string, modelled as its list of Unicode code points. -/
abbrev JsStr := List Nat

/-- Code points of a Lean string literal, for readable concrete inputs. -/
def str (s : String) : JsStr := s.data.map Char.toNat

/-- The ASCII simple case mapping used by `toLowerCase` on the inputs
considered here: uppercase letters shift down by 32, all else is fixed. -/
def jsToLower (c : Nat) : Nat :=
  if 65 ≤ c ∧ c ≤ 90 then c + 32 else c

/-- Model of `s.toLowerCase()`. -/
def lowerStr (s : JsStr) : JsStr := s.map jsToLower

/-- The code points matched by the regex class `\s` in JavaScript
(whitespace and line terminators). -/
def wsList : List Nat :=
  [9, 10, 11, 12, 13, 32, 160, 0x1680,
   0x2000, 0x2001, 0x2002, 0x2003, 0x2004, 0x2005, 0x2006, 0x2007,
   0x2008, 0x2009, 0x200a, 0x2028, 0x2029, 0x202f, 0x205f, 0x3000, 0xfeff]

/-- The delimiter class of `tokenize`: the regex `[\s\-_/.,:;!?()]`. -/
def delimList : List Nat :=
  wsList ++ [45, 95, 47, 46, 44, 58, 59, 33, 63, 40, 41]

/-- Membership in the `tokenize` delimiter class. -/
def isDelim (c : Nat) : Bool := decide (c ∈ delimList)

/-- Maximal delimiter-free runs of a string: the model of
`s.split(/[\s\-_/.,:;!?()]+/).filter(Boolean)` (splitting on maximal runs
of delimiters and dropping the empty boundary pieces leaves exactly the
maximal non-delimiter runs, in order). A non-delimiter character is
prepended to the run it opens or extends. -/
def splitRuns : JsStr → List JsStr
  | [] => []
  | [c] => if isDelim c then [] else [[c]]
  | c :: d :: rest =>
    if isDelim c then splitRuns (d :: rest)
    else if isDelim d then [c] :: splitRuns (d :: rest)
    else
      match splitRuns (d :: rest) with
      | [] => [[c]]
      | r :: rs => (c :: r) :: rs

/-- Model of `tokenize`: lowercase the query, split on the delimiter class,
keep the non-empty pieces. -/
def tokenize (q : JsStr) : List JsStr := splitRuns (lowerStr q)

/-- Whether `s` starts with `pat` (model of `String.prototype.startsWith`,
used to express substring occurrence at a position). -/
def startsWith : JsStr → JsStr → Bool
  | _, [] => true
  | [], _ :: _ => false
  | b :: s, a :: p => b == a && startsWith s p

/-- Model of `s.indexOf(pat)`: the first position where `pat` occurs as a
substring of `s`, or `none` where JavaScript returns `-1`. -/
def indexOf? : JsStr → JsStr → Option Nat
  | [], pat => if startsWith [] pat then some 0 else none
  | c :: rest, pat =>
    if startsWith (c :: rest) pat then some 0
    else (indexOf? rest pat).map (fun n => n + 1)

/-- One step of the earliest-occurrence loop of `buildSnippet`:
`if (p !== -1 && (pos === -1 || p < pos)) pos = p`. -/
def stepPos (lc : JsStr) (pos : Option Nat) (t : JsStr) : Option Nat :=
  match indexOf? lc t with
  | none => pos
  | some p =>
    match pos with
    | none => some p
    | some q => if p < q then some p else some q

/-- The `for (const t of tokens)` loop of `buildSnippet`: earliest occurrence
of any token in the lowercased text. -/
def earliest (lc : JsStr) (tokens : List JsStr) : Option Nat :=
  tokens.foldl (stepPos lc) none

/-- Replacement for one character under the regex `/[&<>\"']/g`. -/
def escChar (c : Nat) : JsStr :=
  if c = 38 then str "&amp;"
  else if c = 60 then str "&lt;"
  else if c = 62 then str "&gt;"
  else if c = 34 then str "&quot;"
  else if c = 39 then str "&#39;"
  else [c]

/-- The `esc` helper of `buildSnippet`: per-character global replacement of
the five HTML-sensitive characters. -/
def esc : JsStr → JsStr
  | [] => []
  | c :: rest => escChar c ++ esc rest

/-- Code points of the opening highlight marker. -/
def markOpen : JsStr := str "<mark>"

/-- Code points of the closing highlight marker. -/
def markClose : JsStr := str "</mark>"

/-- One scan step of `html.replace(new RegExp(..., "gi"), "<mark>$1</mark>")`
for a single token: at each position, a case-insensitive match of the token
is wrapped in the markers and the scan resumes after it (global flag);
otherwise the character is copied. The numeric argument counts characters
still to skip out of an already-emitted match. This models the replace
exactly for tokens free of ECMAScript SyntaxCharacters (`isRegexSyntax`):
on those the broken escaping step is the identity (`escapeTok_id`), the
pattern is a parenthesized sequence of PatternCharacters, and by the
pattern grammar it is well-formed and matches the token literally. On a
token containing a SyntaxCharacter the program instead throws in
`new RegExp` (for example a lone `[`) or matches non-literally (`a*`,
`b|z`), so theorems about the match branch of `buildSnippet` carry the
SyntaxCharacter-free hypothesis. -/
def hlAux (tok : JsStr) : Nat → JsStr → JsStr
  | _, [] => []
  | n + 1, _ :: rest => hlAux tok n rest
  | 0, c :: rest =>
    if tok ≠ [] ∧ startsWith (lowerStr (c :: rest)) (lowerStr tok) then
      markOpen ++ (c :: rest).take tok.length ++ markClose ++
        hlAux tok (tok.length - 1) rest
    else c :: hlAux tok 0 rest

/-- Highlighting of one token over the whole string. -/
def hlTok (tok s : JsStr) : JsStr := hlAux tok 0 s

/-- The `tokens.forEach` highlighting loop of `buildSnippet`, with its
`if (!t) return` guard. -/
def highlight (tokens : List JsStr) (html : JsStr) : JsStr :=
  tokens.foldl (fun h t => if t = [] then h else hlTok t h) html

/-- The horizontal-ellipsis character prepended or appended to a windowed
snippet. -/
def ellipsis : JsStr := str "…"

/-- Model of `buildSnippet(text, query, maxLen)`: empty text gives the empty
string; with no tokens or no token occurring, the plain prefix of length
`maxLen`; otherwise a window of width `maxLen` around the earliest token
occurrence, escaped, highlighted, and framed by ellipses exactly where the
window is a proper slice. Nat subtraction realizes `Math.max(0, ...)`. The
three early-return branches model the program on all inputs; the match
branch models it exactly on queries whose tokens are free of ECMAScript
SyntaxCharacters (see `hlAux`): on other tokens the program throws or
highlights non-literally because of the broken escaping (see `escapeTok`). -/
def buildSnippet (text query : JsStr) (maxLen : Nat) : JsStr :=
  if text = [] then []
  else
    let lc := lowerStr text
    let tokens := tokenize query
    if tokens = [] then text.take maxLen
    else
      match earliest lc tokens with
      | none => text.take maxLen
      | some pos =>
        let start := pos - maxLen / 3
        let stop := min text.length (start + maxLen)
        let slice := (text.take stop).drop start
        let html := highlight tokens (esc slice)
        (if 0 < start then ellipsis else []) ++ html ++
          (if stop < text.length then ellipsis else [])

/-- The character class actually written in the token-escaping regex literal
`/[.*+?^${}()|[\\]\\\\]/g` of `buildSnippet`: the class closes at the first
unescaped `]`, so it contains `. * + ? ^ $ \x7b \x7d ( ) | [ \` and the
regex continues with the literal atoms `\\ \\ ]`. -/
def escClassList : List Nat := [46, 42, 43, 63, 94, 36, 123, 125, 40, 41, 124, 91, 92]

/-- Membership in that character class. -/
def isEscClass (c : Nat) : Bool := decide (c ∈ escClassList)

/-- Model of `t.replace(/[.*+?^${}()|[\\]\\\\]/g, "\\$&")` as the source has
it: the pattern is one class character followed by the three literal
characters `\`, `\`, `]`, and each (non-overlapping, left-to-right) match is
replaced by a backslash plus the match. In particular a lone regex
metacharacter in a token is never escaped. -/
def escapeTok : JsStr → JsStr
  | c :: a :: b :: d :: rest =>
    if isEscClass c = true ∧ a = 92 ∧ b = 92 ∧ d = 93 then
      92 :: c :: a :: b :: d :: escapeTok rest
    else c :: escapeTok (a :: b :: d :: rest)
  | c :: rest => c :: escapeTok rest
  | [] => []

/-- Modelled from the ECMAScript pattern grammar of the external RegExp
engine: the SyntaxCharacter set `^ $ \ . * + ? ( ) [ ] \x7b \x7d |`. A
pattern built solely from characters outside this set is a sequence of
PatternCharacters: it parses, and it matches exactly that character
sequence, literally. A token containing a SyntaxCharacter reaches
`new RegExp` unescaped (see `escapeTok`) and the constructed pattern may
fail to parse (a lone `[`) or match non-literally (`a*`, `b|z`). -/
def syntaxCharList : List Nat :=
  [94, 36, 92, 46, 42, 43, 63, 40, 41, 91, 93, 123, 125, 124]

/-- Membership in the SyntaxCharacter set of the ECMAScript pattern
grammar. -/
def isRegexSyntax (c : Nat) : Bool := decide (c ∈ syntaxCharList)

/-- A document of the store; absent or empty fields are falsy in the
JavaScript `||` chains of `render`. -/
structure Doc where
  permalink : Option JsStr := none
  url : Option JsStr := none
  title : Option JsStr := none
  summary : Option JsStr := none
  description : Option JsStr := none
  content : Option JsStr := none
  body : Option JsStr := none
deriving DecidableEq

/-- The document every field of which is absent: `store[hit.ref] || {}`. -/
def emptyDoc : Doc := {}

/-- JavaScript `v || dflt` for an optional string field: absent and empty
are falsy. -/
def orF (v : Option JsStr) (dflt : JsStr) : JsStr :=
  match v with
  | none => dflt
  | some s => if s = [] then dflt else s

/-- What `render` produces for one hit: the link target, the link text, and
the snippet markup if any (`if (snippet)` keeps only non-empty snippets). -/
structure RenderedHit where
  href : JsStr
  text : JsStr
  snippet : Option JsStr
deriving DecidableEq

/-- Model of the per-hit body of `render`: resolve the document, build
`a.href = doc.permalink || doc.url || hit.ref || "#"`,
`a.textContent = doc.title || doc.permalink || "Untitled"`, pick the snippet
source `doc.summary || doc.description || doc.content || doc.body || ""`,
and attach `buildSnippet(rawText, query, 200)` when non-empty. -/
def renderHit (store : JsStr → Option Doc) (query ref : JsStr) : RenderedHit :=
  let doc := (store ref).getD emptyDoc
  let href := orF doc.permalink (orF doc.url (if ref = [] then str "#" else ref))
  let text := orF doc.title (orF doc.permalink (str "Untitled"))
  let rawText := orF doc.summary (orF doc.description
    (orF doc.content (orF doc.body [])))
  let snip := buildSnippet rawText query 200
  { href := href, text := text,
    snippet := if snip = [] then none else some snip }

/-- A search hit as returned by the index: a reference and a numeric score.
The ES2019 comparator semantics of `(a,b) => (b.score - a.score)` only ever
uses the sign of the difference, so scores are modelled as integers. -/
structure Hit where
  ref : JsStr
  score : Int
deriving DecidableEq

/-- Stable insertion of a hit in front of the first element whose score does
not exceed it (descending order; ties keep the earlier-inserted element
behind, which together with `sortByScoreDesc`'s fold makes the sort stable). -/
def insertDesc (a : Hit) : List Hit → List Hit
  | [] => [a]
  | x :: xs => if x.score ≤ a.score then a :: x :: xs else x :: insertDesc a xs

/-- Model of `hits.sort((a,b) => (b.score - a.score))`: per ES2019 `sort` is
stable and the comparator orders by descending score, which this stable
insertion sort realizes. -/
def sortByScoreDesc (l : List Hit) : List Hit := l.foldr insertDesc []

/-- The JavaScript whitespace test used by `String.prototype.trim`. -/
def isJsWs (c : Nat) : Bool := decide (c ∈ wsList)

/-- Model of `q.trim()`. -/
def jsTrim (s : JsStr) : JsStr :=
  ((s.dropWhile isJsWs).reverse.dropWhile isJsWs).reverse

/-- The observable outcome of `doSearch`: either the results container is
emptied, or the given hits are rendered for the given query. -/
inductive SearchOutcome where
  | cleared : SearchOutcome
  | rendered : List Hit → JsStr → SearchOutcome
deriving DecidableEq

/-- Model of `doSearch(q)`: trim, short-circuit on queries of length below 2
by clearing the results, otherwise query the index, sort descending by
score, truncate to the top 20 and render. The index search is an opaque
parameter `searchIdx` (the elasticlunr index is external to this module). -/
def doSearch (searchIdx : JsStr → List Hit) (q : JsStr) : SearchOutcome :=
  let query := jsTrim q
  if query.length < 2 then SearchOutcome.cleared
  else SearchOutcome.rendered ((sortByScoreDesc (searchIdx query)).take 20) query

theorem jsToLower_idem (c : Nat) : jsToLower (jsToLower c) = jsToLower c := by
  unfold jsToLower
  by_cases h : 65 ≤ c ∧ c ≤ 90
  · simp only [if_pos h]
    have h2 : ¬ (65 ≤ c + 32 ∧ c + 32 ≤ 90) := by omega
    simp only [if_neg h2]
  · simp only [if_neg h]

/-- A string that starts with a non-delimiter splits into a first run opened
by that character. -/
theorem splitRuns_head : ∀ (d : Nat) (rest : JsStr), isDelim d = false →
    ∃ r rs, splitRuns (d :: rest) = (d :: r) :: rs
  | d, [], hd => ⟨[], [], by simp [splitRuns, hd]⟩
  | d, e :: rest2, hd => by
    by_cases he : isDelim e = true
    · exact ⟨[], splitRuns (e :: rest2), by simp [splitRuns, hd, he]⟩
    · simp only [Bool.not_eq_true] at he
      obtain ⟨r0, rs0, h0⟩ := splitRuns_head e rest2 he
      exact ⟨e :: r0, rs0, by simp [splitRuns, hd, he, h0]⟩

/-- Every run produced by `splitRuns` is non-empty and delimiter-free. -/
theorem splitRuns_runs : ∀ l : JsStr, ∀ t ∈ splitRuns l,
    t ≠ [] ∧ ∀ c ∈ t, isDelim c = false
  | [] => by simp [splitRuns]
  | [c] => by
    by_cases h : isDelim c = true <;> simp_all [splitRuns]
  | c :: d :: rest => by
    intro t ht
    by_cases hc : isDelim c = true
    · rw [show splitRuns (c :: d :: rest) = splitRuns (d :: rest) by
        simp [splitRuns, hc]] at ht
      exact splitRuns_runs (d :: rest) t ht
    · simp only [Bool.not_eq_true] at hc
      by_cases hd : isDelim d = true
      · rw [show splitRuns (c :: d :: rest) = [c] :: splitRuns (d :: rest) by
          simp [splitRuns, hc, hd]] at ht
        rcases List.mem_cons.mp ht with rfl | ht2
        · exact ⟨by simp, by simp [hc]⟩
        · exact splitRuns_runs (d :: rest) t ht2
      · simp only [Bool.not_eq_true] at hd
        obtain ⟨r0, rs0, h0⟩ := splitRuns_head d rest hd
        rw [show splitRuns (c :: d :: rest) = (c :: d :: r0) :: rs0 by
          simp [splitRuns, hc, hd, h0]] at ht
        rcases List.mem_cons.mp ht with rfl | ht2
        · have hmem : (d :: r0) ∈ splitRuns (d :: rest) := by
            rw [h0]; exact List.mem_cons_self _ _
          have h1 := (splitRuns_runs (d :: rest) _ hmem).2
          refine ⟨by simp, ?_⟩
          intro x hx
          rcases List.mem_cons.mp hx with rfl | hx2
          · exact hc
          · exact h1 x hx2
        · have hmem : t ∈ splitRuns (d :: rest) := by
            rw [h0]; exact List.mem_cons_of_mem _ ht2
          exact splitRuns_runs (d :: rest) t hmem

/-- Characters of the runs come from the split string. -/
theorem splitRuns_subset : ∀ l : JsStr, ∀ t ∈ splitRuns l, ∀ c ∈ t, c ∈ l
  | [] => by simp [splitRuns]
  | [c0] => by
    by_cases h : isDelim c0 = true <;> simp_all [splitRuns]
  | c0 :: d :: rest => by
    intro t ht c hc
    by_cases hc0 : isDelim c0 = true
    · rw [show splitRuns (c0 :: d :: rest) = splitRuns (d :: rest) by
        simp [splitRuns, hc0]] at ht
      exact List.mem_cons_of_mem _ (splitRuns_subset (d :: rest) t ht c hc)
    · simp only [Bool.not_eq_true] at hc0
      by_cases hd : isDelim d = true
      · rw [show splitRuns (c0 :: d :: rest) = [c0] :: splitRuns (d :: rest) by
          simp [splitRuns, hc0, hd]] at ht
        rcases List.mem_cons.mp ht with rfl | ht2
        · simp at hc
          simp [hc]
        · exact List.mem_cons_of_mem _
            (splitRuns_subset (d :: rest) t ht2 c hc)
      · simp only [Bool.not_eq_true] at hd
        obtain ⟨r0, rs0, h0⟩ := splitRuns_head d rest hd
        rw [show splitRuns (c0 :: d :: rest) = (c0 :: d :: r0) :: rs0 by
          simp [splitRuns, hc0, hd, h0]] at ht
        rcases List.mem_cons.mp ht with rfl | ht2
        · rcases List.mem_cons.mp hc with rfl | hc2
          · simp
          · have hmem : (d :: r0) ∈ splitRuns (d :: rest) := by
              rw [h0]; exact List.mem_cons_self _ _
            exact List.mem_cons_of_mem _
              (splitRuns_subset (d :: rest) _ hmem c hc2)
        · have hmem : t ∈ splitRuns (d :: rest) := by
            rw [h0]; exact List.mem_cons_of_mem _ ht2
          exact List.mem_cons_of_mem _
            (splitRuns_subset (d :: rest) t hmem c hc)

/-- A non-empty delimiter-free string is a single run. -/
theorem splitRuns_fix : ∀ l : JsStr, l ≠ [] →
    (∀ c ∈ l, isDelim c = false) → splitRuns l = [l]
  | [], h, _ => absurd rfl h
  | [c], _, hall => by simp [splitRuns, hall c (by simp)]
  | c :: d :: rest, _, hall => by
    have hc : isDelim c = false := hall c (by simp)
    have hd : isDelim d = false := hall d (by simp)
    have ih : splitRuns (d :: rest) = [d :: rest] :=
      splitRuns_fix (d :: rest) (by simp)
        (fun x hx => hall x (List.mem_cons_of_mem _ hx))
    simp [splitRuns, hc, hd, ih]

/-- Tokens are non-empty. -/
theorem tokenize_nonempty (q : JsStr) : ∀ t ∈ tokenize q, t ≠ [] :=
  fun t ht => (splitRuns_runs (lowerStr q) t ht).1

/-- Tokens contain no delimiter characters. -/
theorem tokenize_no_delim (q : JsStr) :
    ∀ t ∈ tokenize q, ∀ c ∈ t, isDelim c = false :=
  fun t ht => (splitRuns_runs (lowerStr q) t ht).2

/-- Token characters are fixed by the lowercase mapping. -/
theorem tokenize_chars_lower (q : JsStr) :
    ∀ t ∈ tokenize q, ∀ c ∈ t, jsToLower c = c := by
  intro t ht c hc
  have hmem : c ∈ lowerStr q := splitRuns_subset (lowerStr q) t ht c hc
  obtain ⟨x, _, rfl⟩ := List.mem_map.mp hmem
  exact jsToLower_idem x

/-- Tokenization only sees the lowercased input. -/
theorem tokenize_lower (q : JsStr) : tokenize q = tokenize (lowerStr q) := by
  unfold tokenize lowerStr
  rw [List.map_map]
  congr 1
  exact (List.map_congr_left (fun c _ => (jsToLower_idem c).symm))

/-- Every token re-tokenizes to itself. -/
theorem tokenize_fix (q : JsStr) : ∀ t ∈ tokenize q, tokenize t = [t] := by
  intro t ht
  have hfix : lowerStr t = t := by
    have := tokenize_chars_lower q t ht
    unfold lowerStr
    calc t.map jsToLower = t.map id := List.map_congr_left (fun c hc => this c hc)
    _ = t := List.map_id t
  unfold tokenize
  rw [hfix]
  exact splitRuns_fix t (tokenize_nonempty q t ht) (tokenize_no_delim q t ht)

theorem startsWith_nil_iff (pat : JsStr) : startsWith [] pat = true ↔ pat = [] := by
  cases pat <;> simp [startsWith]

/-- `indexOf` returns `-1` exactly when the pattern occurs at no position. -/
theorem indexOf?_eq_none_iff : ∀ s pat : JsStr,
    indexOf? s pat = none ↔ ∀ i : Nat, startsWith (List.drop i s) pat = false
  | [], pat => by
    constructor
    · intro h i
      rw [List.drop_nil]
      cases hsw : startsWith [] pat
      · rfl
      · simp [indexOf?, hsw] at h
    · intro h
      have h0 := h 0
      rw [List.drop_nil] at h0
      simp [indexOf?, h0]
  | c :: rest, pat => by
    by_cases hsw : startsWith (c :: rest) pat = true
    · constructor
      · intro h
        simp [indexOf?, hsw] at h
      · intro h
        have h0 := h 0
        rw [List.drop_zero, hsw] at h0
        exact absurd h0 (by simp)
    · simp only [Bool.not_eq_true] at hsw
      have ih := indexOf?_eq_none_iff rest pat
      constructor
      · intro h i
        simp only [indexOf?, hsw] at h
        simp only [Bool.false_eq_true, if_false, Option.map_eq_none'] at h
        cases i with
        | zero => simpa using hsw
        | succ j =>
          have hj := (ih.mp h) j
          simpa [List.drop_succ_cons] using hj
      · intro h
        simp only [indexOf?, hsw, Bool.false_eq_true, if_false,
          Option.map_eq_none']
        apply ih.mpr
        intro j
        have hj := h (j + 1)
        simpa [List.drop_succ_cons] using hj

/-- The position found by `indexOf` is an occurrence. -/
theorem indexOf?_some_start : ∀ s pat : JsStr, ∀ p : Nat,
    indexOf? s pat = some p → startsWith (List.drop p s) pat = true
  | [], pat, p => by
    intro h
    cases hsw : startsWith [] pat
    · simp [indexOf?, hsw] at h
    · simp [indexOf?, hsw] at h
      subst h
      simpa [List.drop_nil] using hsw
  | c :: rest, pat, p => by
    intro h
    by_cases hsw : startsWith (c :: rest) pat = true
    · simp [indexOf?, hsw] at h
      subst h
      simpa using hsw
    · simp only [Bool.not_eq_true] at hsw
      simp only [indexOf?, hsw, Bool.false_eq_true, if_false,
        Option.map_eq_some'] at h
      obtain ⟨q, hq, rfl⟩ := h
      have := indexOf?_some_start rest pat q hq
      simpa [List.drop_succ_cons] using this

/-- An occurrence at position `i` forces `indexOf` to find one at most `i`. -/
theorem startsWith_exists_indexOf : ∀ (s pat : JsStr) (i : Nat),
    startsWith (List.drop i s) pat = true →
    ∃ p, indexOf? s pat = some p ∧ p ≤ i
  | [], pat, i => by
    intro h
    rw [List.drop_nil] at h
    have hpat := (startsWith_nil_iff pat).mp h
    subst hpat
    exact ⟨0, by simp [indexOf?, startsWith], Nat.zero_le i⟩
  | c :: rest, pat, i => by
    intro h
    by_cases hsw : startsWith (c :: rest) pat = true
    · exact ⟨0, by simp [indexOf?, hsw], Nat.zero_le i⟩
    · simp only [Bool.not_eq_true] at hsw
      cases i with
      | zero =>
        rw [List.drop_zero] at h
        rw [h] at hsw
        exact absurd hsw (by simp)
      | succ j =>
        rw [List.drop_succ_cons] at h
        obtain ⟨q, hq, hle⟩ := startsWith_exists_indexOf rest pat j h
        refine ⟨q + 1, ?_, by omega⟩
        simp [indexOf?, hsw, hq]

theorem stepPos_eq_none (lc : JsStr) (acc : Option Nat) (t : JsStr) :
    stepPos lc acc t = none ↔ acc = none ∧ indexOf? lc t = none := by
  cases h : indexOf? lc t with
  | none => simp [stepPos, h]
  | some p =>
    cases acc with
    | none => simp [stepPos, h]
    | some q =>
      simp only [stepPos, h]
      constructor
      · intro hc
        split at hc <;> simp at hc
      · rintro ⟨h1, -⟩
        simp at h1

theorem stepPos_some_le_acc (lc : JsStr) (acc : Option Nat) (t : JsStr)
    (r : Nat) (h : stepPos lc acc t = some r) :
    ∀ q, acc = some q → r ≤ q := by
  intro q hq
  subst hq
  unfold stepPos at h
  cases hi : indexOf? lc t with
  | none => rw [hi] at h; simp at h; omega
  | some p =>
    rw [hi] at h
    simp only at h
    split at h <;> simp at h <;> omega

theorem stepPos_some_le_idx (lc : JsStr) (acc : Option Nat) (t : JsStr)
    (r : Nat) (h : stepPos lc acc t = some r) :
    ∀ p, indexOf? lc t = some p → r ≤ p := by
  intro p hp
  unfold stepPos at h
  rw [hp] at h
  cases acc with
  | none => simp at h; omega
  | some q =>
    simp only at h
    split at h <;> simp at h <;> omega

theorem stepPos_some_origin (lc : JsStr) (acc : Option Nat) (t : JsStr)
    (r : Nat) (h : stepPos lc acc t = some r) :
    acc = some r ∨ indexOf? lc t = some r := by
  cases hi : indexOf? lc t with
  | none =>
    simp only [stepPos, hi] at h
    exact Or.inl h
  | some p =>
    cases acc with
    | none =>
      simp only [stepPos, hi] at h
      exact Or.inr h
    | some q =>
      simp only [stepPos, hi] at h
      split at h
      · exact Or.inr h
      · exact Or.inl h

theorem foldl_stepPos_none (lc : JsStr) : ∀ (ts : List JsStr) (acc : Option Nat),
    List.foldl (stepPos lc) acc ts = none ↔
      acc = none ∧ ∀ t ∈ ts, indexOf? lc t = none
  | [], acc => by simp
  | t :: ts, acc => by
    rw [List.foldl_cons, foldl_stepPos_none lc ts (stepPos lc acc t),
      stepPos_eq_none]
    constructor
    · rintro ⟨⟨h1, h2⟩, h3⟩
      exact ⟨h1, by
        intro t0 ht0
        rcases List.mem_cons.mp ht0 with rfl | ht1
        · exact h2
        · exact h3 t0 ht1⟩
    · rintro ⟨h1, h2⟩
      exact ⟨⟨h1, h2 t (List.mem_cons_self _ _)⟩,
        fun t0 ht0 => h2 t0 (List.mem_cons_of_mem _ ht0)⟩

theorem foldl_stepPos_le (lc : JsStr) : ∀ (ts : List JsStr) (acc : Option Nat)
    (p : Nat), List.foldl (stepPos lc) acc ts = some p →
      (∀ q, acc = some q → p ≤ q) ∧
      (∀ t ∈ ts, ∀ q, indexOf? lc t = some q → p ≤ q)
  | [], acc, p => by
    intro h
    simp at h
    subst h
    exact ⟨fun q hq => by simp at hq; omega, by simp⟩
  | t :: ts, acc, p => by
    intro h
    rw [List.foldl_cons] at h
    have ih := foldl_stepPos_le lc ts (stepPos lc acc t) p h
    constructor
    · intro q hq
      cases hstep : stepPos lc acc t with
      | none =>
        have := (stepPos_eq_none lc acc t).mp hstep
        rw [this.1] at hq
        exact absurd hq (by simp)
      | some r =>
        have h1 := ih.1 r hstep
        have h2 := stepPos_some_le_acc lc acc t r hstep q hq
        omega
    · intro t0 ht0 q hq
      rcases List.mem_cons.mp ht0 with rfl | ht1
      · cases hstep : stepPos lc acc t0 with
        | none =>
          have := (stepPos_eq_none lc acc t0).mp hstep
          rw [this.2] at hq
          exact absurd hq (by simp)
        | some r =>
          have h1 := ih.1 r hstep
          have h2 := stepPos_some_le_idx lc acc t0 r hstep q hq
          omega
      · exact ih.2 t0 ht1 q hq

theorem foldl_stepPos_origin (lc : JsStr) : ∀ (ts : List JsStr)
    (acc : Option Nat) (p : Nat),
    List.foldl (stepPos lc) acc ts = some p →
      acc = some p ∨ ∃ t ∈ ts, indexOf? lc t = some p
  | [], acc, p => by
    intro h
    simp at h
    subst h
    exact Or.inl rfl
  | t :: ts, acc, p => by
    intro h
    rw [List.foldl_cons] at h
    rcases foldl_stepPos_origin lc ts (stepPos lc acc t) p h with h1 | h1
    · rcases stepPos_some_origin lc acc t p h1 with h2 | h2
      · exact Or.inl h2
      · exact Or.inr ⟨t, List.mem_cons_self _ _, h2⟩
    · obtain ⟨t0, ht0, h2⟩ := h1
      exact Or.inr ⟨t0, List.mem_cons_of_mem _ ht0, h2⟩

/-- The loop finds no position exactly when no token occurs anywhere. -/
theorem earliest_eq_none_iff (lc : JsStr) (ts : List JsStr) :
    earliest lc ts = none ↔ ∀ t ∈ ts, indexOf? lc t = none := by
  unfold earliest
  rw [foldl_stepPos_none]
  simp

/-- A found position is an occurrence of some token. -/
theorem earliest_some_occurrence (lc : JsStr) (ts : List JsStr) (p : Nat)
    (h : earliest lc ts = some p) :
    ∃ t ∈ ts, startsWith (List.drop p lc) t = true := by
  unfold earliest at h
  rcases foldl_stepPos_origin lc ts none p h with h1 | h1
  · exact absurd h1 (by simp)
  · obtain ⟨t, ht, h2⟩ := h1
    exact ⟨t, ht, indexOf?_some_start lc t p h2⟩

/-- A found position is at most every occurrence of every token. -/
theorem earliest_some_min (lc : JsStr) (ts : List JsStr) (p : Nat)
    (h : earliest lc ts = some p) :
    ∀ t ∈ ts, ∀ i : Nat, startsWith (List.drop i lc) t = true → p ≤ i := by
  intro t ht i hocc
  obtain ⟨q, hq, hle⟩ := startsWith_exists_indexOf lc t i hocc
  have := (foldl_stepPos_le lc ts none p h).2 t ht q hq
  omega

theorem mem_insertDesc (a y : Hit) : ∀ l : List Hit,
    y ∈ insertDesc a l ↔ y = a ∨ y ∈ l
  | [] => by simp [insertDesc]
  | x :: xs => by
    unfold insertDesc
    split
    · simp only [List.mem_cons]
    · rw [List.mem_cons, mem_insertDesc a y xs, List.mem_cons]
      tauto

theorem pairwise_insertDesc (a : Hit) : ∀ l : List Hit,
    List.Pairwise (fun x y : Hit => y.score ≤ x.score) l →
    List.Pairwise (fun x y : Hit => y.score ≤ x.score) (insertDesc a l)
  | [], _ => by simp [insertDesc]
  | x :: xs, h => by
    rw [List.pairwise_cons] at h
    unfold insertDesc
    split
    · rename_i hxa
      rw [List.pairwise_cons]
      refine ⟨?_, List.pairwise_cons.mpr h⟩
      intro y hy
      rcases List.mem_cons.mp hy with rfl | hy2
      · exact hxa
      · have := h.1 y hy2
        omega
    · rename_i hxa
      rw [List.pairwise_cons]
      refine ⟨?_, pairwise_insertDesc a xs h.2⟩
      intro y hy
      rcases (mem_insertDesc a y xs).mp hy with rfl | hy2
      · omega
      · exact h.1 y hy2

/-- The sorted hit list is in descending score order. -/
theorem sortByScoreDesc_pairwise : ∀ l : List Hit,
    List.Pairwise (fun x y : Hit => y.score ≤ x.score) (sortByScoreDesc l)
  | [] => by simp [sortByScoreDesc]
  | x :: xs => by
    have ih := sortByScoreDesc_pairwise xs
    unfold sortByScoreDesc at ih ⊢
    rw [List.foldr_cons]
    exact pairwise_insertDesc x _ ih

theorem filter_insertDesc (a : Hit) (s : Int) : ∀ l : List Hit,
    (insertDesc a l).filter (fun x => x.score == s) =
      if a.score = s then a :: l.filter (fun x => x.score == s)
      else l.filter (fun x => x.score == s)
  | [] => by
    by_cases h : a.score = s <;> simp [insertDesc, List.filter_cons, h]
  | x :: xs => by
    unfold insertDesc
    split
    · by_cases h : a.score = s <;> simp [List.filter_cons, h]
    · rename_i hxa
      rw [List.filter_cons, List.filter_cons, filter_insertDesc a s xs]
      by_cases h : a.score = s
      · have hx : (x.score == s) = false := by
          rw [beq_eq_false_iff_ne]
          intro he
          omega
        simp [h, hx]
      · by_cases hx : x.score = s <;> simp [h, hx]

/-- Sorting keeps, for every score value, the hits of that score in their
original relative order (stability), and in particular is a permutation. -/
theorem sortByScoreDesc_filter (s : Int) : ∀ l : List Hit,
    (sortByScoreDesc l).filter (fun x => x.score == s) =
      l.filter (fun x => x.score == s)
  | [] => by simp [sortByScoreDesc]
  | x :: xs => by
    have ih := sortByScoreDesc_filter s xs
    unfold sortByScoreDesc at ih ⊢
    rw [List.foldr_cons, filter_insertDesc, ih, List.filter_cons]
    by_cases h : x.score = s <;> simp [h]

/-- A string of delimiters only has no runs. -/
theorem splitRuns_all_delim : ∀ l : JsStr, (∀ c ∈ l, isDelim c = true) →
    splitRuns l = []
  | [], _ => rfl
  | [c], h => by simp [splitRuns, h c (by simp)]
  | c :: d :: rest, h => by
    rw [show splitRuns (c :: d :: rest) = splitRuns (d :: rest) by
      simp [splitRuns, h c (by simp)]]
    exact splitRuns_all_delim (d :: rest)
      (fun x hx => h x (List.mem_cons_of_mem _ hx))

/-- Whitespace-only input tokenizes to the empty sequence. -/
theorem tokenize_ws_only (q : JsStr) (hq : ∀ c ∈ q, isJsWs c = true) :
    tokenize q = [] := by
  unfold tokenize
  apply splitRuns_all_delim
  intro c hc
  obtain ⟨x, hx, rfl⟩ := List.mem_map.mp hc
  have hw : x ∈ wsList := of_decide_eq_true (hq x hx)
  have hfix : jsToLower x = x := by
    have hno : ∀ y ∈ wsList, ¬ (65 ≤ y ∧ y ≤ 90) := by decide
    simp [jsToLower, hno x hw]
  rw [hfix]
  unfold isDelim
  apply decide_eq_true
  unfold delimList
  exact List.mem_append_left _ hw

/-- On a token free of ECMAScript SyntaxCharacters, the (broken) escaping
step is the identity — in particular `\` (92) never occurs in such a token
— so the pattern handed to `new RegExp` is the parenthesized token itself. -/
theorem escapeTok_id : ∀ t : JsStr, (∀ c ∈ t, isRegexSyntax c = false) →
    escapeTok t = t
  | [], _ => rfl
  | [c], _ => rfl
  | [c, a], _ => rfl
  | [c, a, b], _ => rfl
  | c :: a :: b :: d :: rest, h => by
    have ha : ¬ a = 92 := by
      intro he
      have h1 := h a (by simp)
      rw [he] at h1
      exact absurd h1 (by decide)
    rw [show escapeTok (c :: a :: b :: d :: rest) =
        c :: escapeTok (a :: b :: d :: rest) by simp [escapeTok, ha],
      escapeTok_id (a :: b :: d :: rest)
        (fun x hx => h x (List.mem_cons_of_mem _ hx))]

end SearchJs

open SearchJs

/-- C7: tokenize maps a raw string to the ordered sequence of non-empty
lowercased maximal runs obtained by splitting on whitespace and the fixed
punctuation set (each token is non-empty and free of every delimiter
character); empty or whitespace-only input yields the empty sequence; in
particular tokenize("Hello, World!") = ["hello", "world"] and
tokenize("") = []. -/
theorem c7_tokenize_contract :
    (tokenize (str "Hello, World!") = [str "hello", str "world"]) ∧
    (tokenize (str "") = []) ∧
    (∀ q : JsStr, ∀ t ∈ tokenize q, t ≠ [] ∧ ∀ c ∈ t, isDelim c = false) ∧
    (∀ q : JsStr, (∀ c ∈ q, isJsWs c = true) → tokenize q = []) :=
  ⟨by decide, by decide,
   fun q t ht => ⟨tokenize_nonempty q t ht, tokenize_no_delim q t ht⟩,
   tokenize_ws_only⟩

/-- Witness for C7: the general parts applied at concrete inputs. -/
theorem c7_tokenize_contract_witness :
    (tokenize (str "Hello, World!") = [str "hello", str "world"]) ∧
    (str "hello" ≠ ([] : JsStr) ∧ ∀ c ∈ str "hello", isDelim c = false) ∧
    tokenize (str "  ") = [] :=
  ⟨c7_tokenize_contract.1,
   c7_tokenize_contract.2.2.1 (str "Hello, World!") (str "hello") (by decide),
   c7_tokenize_contract.2.2.2 (str "  ") (by decide)⟩

/-- C10: tokenize is case-invariant (tokenizing a query and tokenizing its
lowercased form agree) and every produced token is a fixpoint: it
re-tokenizes to the one-element sequence holding exactly itself. -/
theorem c10_tokenize_case_invariant_fixpoint :
    (∀ q : JsStr, tokenize q = tokenize (lowerStr q)) ∧
    (∀ q : JsStr, ∀ t ∈ tokenize q, tokenize t = [t]) :=
  ⟨tokenize_lower, tokenize_fix⟩

/-- Witness for C10 at a concrete query and token. -/
theorem c10_tokenize_case_invariant_fixpoint_witness :
    tokenize (str "AbC x") = tokenize (lowerStr (str "AbC x")) ∧
    tokenize (str "abc") = [str "abc"] :=
  ⟨c10_tokenize_case_invariant_fixpoint.1 (str "AbC x"),
   c10_tokenize_case_invariant_fixpoint.2 (str "AbC x") (str "abc") (by decide)⟩

/-- C8: a query whose trimmed length is below 2 makes doSearch clear the
results and return; the outcome is `cleared` for EVERY index-search
function, so neither the index search nor any ranking is invoked. -/
theorem c8_short_query_clears (searchIdx : JsStr → List Hit) (q : JsStr)
    (h : (jsTrim q).length < 2) :
    doSearch searchIdx q = SearchOutcome.cleared := by
  unfold doSearch
  simp [h]

/-- Witness for C8 at a concrete short query and a non-trivial index. -/
theorem c8_short_query_clears_witness :
    (jsTrim (str " a ")).length < 2 ∧
    doSearch (fun _ => [⟨str "x", 5⟩]) (str " a ") = SearchOutcome.cleared :=
  ⟨by decide, c8_short_query_clears (fun _ => [⟨str "x", 5⟩]) (str " a ") (by decide)⟩

/-- C1 is refuted by the code: in the no-token and in the no-match branch,
buildSnippet returns the raw prefix `text.slice(0, maxLen)` with no
escaping, so a `<` (code point 60) of the source text appears verbatim in
the result, which render then assigns to innerHTML (the source comments
that assignment with "safe: escaped+marked inside buildSnippet"). This
theorem evaluates the code at failing inputs for both branches and shows
the raw markup reaching the rendered snippet. -/
theorem c1_buildSnippet_unescaped_plain_branches :
    buildSnippet (str "<b>hi</b>") (str "") 200 = str "<b>hi</b>" ∧
    (60 : Nat) ∈ buildSnippet (str "<b>hi</b>") (str "") 200 ∧
    buildSnippet (str "<i>z</i>") (str "qq") 200 = str "<i>z</i>" ∧
    (60 : Nat) ∈ buildSnippet (str "<i>z</i>") (str "qq") 200 ∧
    (renderHit (fun _ => some { summary := some (str "<img src=x>") })
      (str "zz") (str "r")).snippet = some (str "<img src=x>") := by
  decide

/-- C2 is refuted by the code: the escaping regex, as written, only matches
a class character that is immediately followed by the three literal
characters `\`, `\`, `]`, so the lone regex metacharacter `[` (code point
91, a member of the class) in the token "a[b" produced from the query
"a[b" passes through unescaped — no backslash (92) is inserted anywhere —
and the constructed pattern `(a[b)` is malformed (new RegExp throws in
JavaScript). The last conjunct shows the only kind of input the replacement
does fire on. -/
theorem c2_escape_regex_broken :
    tokenize (str "a[b") = [str "a[b"] ∧
    (91 : Nat) ∈ str "a[b" ∧
    isEscClass 91 = true ∧
    escapeTok (str "a[b") = str "a[b" ∧
    (92 : Nat) ∉ escapeTok (str "a[b") ∧
    escapeTok [46, 92, 92, 93] = [92, 46, 92, 92, 93] := by
  decide

/-- Counterexample to C3: for a hit whose reference is absent from the
document store, the link href falls back to the raw reference
(`doc.permalink || doc.url || hit.ref || "#"`), not to "#". -/
theorem c3_missing_doc_counterexample :
    ((fun _ : JsStr => (none : Option Doc)) (str "post/x") = none) ∧
    (renderHit (fun _ => none) (str "cats") (str "post/x")).href = str "post/x" ∧
    (renderHit (fun _ => none) (str "cats") (str "post/x")).href ≠ str "#" ∧
    (renderHit (fun _ => none) (str "cats") (str "post/x")).text = str "Untitled" ∧
    (renderHit (fun _ => none) (str "cats") (str "post/x")).snippet = none := by
  decide

/-- C3 as amended: for every hit whose reference is absent from the document
store, rendering produces a link whose href is the hit reference itself
(falling back to "#" only when that reference is the empty string), whose
text is "Untitled", and no snippet is rendered for that hit. -/
theorem c3_missing_doc_render (store : JsStr → Option Doc) (query ref : JsStr)
    (h1 : store ref = none) (h2 : ref ≠ []) :
    (renderHit store query ref).href = ref ∧
    (renderHit store query ref).text = str "Untitled" ∧
    (renderHit store query ref).snippet = none := by
  unfold renderHit
  rw [h1]
  simp [emptyDoc, orF, Option.getD, buildSnippet, h2]

/-- Witness for the amended C3 at a concrete absent reference. -/
theorem c3_missing_doc_render_witness :
    ((fun _ : JsStr => (none : Option Doc)) (str "about/") = none) ∧
    (str "about/" ≠ ([] : JsStr)) ∧
    (renderHit (fun _ => none) (str "dogs") (str "about/")).href = str "about/" ∧
    (renderHit (fun _ => none) (str "dogs") (str "about/")).text = str "Untitled" ∧
    (renderHit (fun _ => none) (str "dogs") (str "about/")).snippet = none :=
  ⟨rfl, by decide,
   (c3_missing_doc_render (fun _ => none) (str "dogs") (str "about/") rfl (by decide)).1,
   (c3_missing_doc_render (fun _ => none) (str "dogs") (str "about/") rfl (by decide)).2.1,
   (c3_missing_doc_render (fun _ => none) (str "dogs") (str "about/") rfl (by decide)).2.2⟩

/-- C6: buildSnippet of the empty text is the empty string, and for
non-empty text it returns the first maxLen characters of the text verbatim
(equality with `text.take maxLen`, hence nothing — no mark tags, no
ellipsis — is added) both when the query yields no tokens and when no token
occurs as a substring of the lowercased text at any position. -/
theorem c6_plain_prefix_branches (text query : JsStr) (maxLen : Nat) :
    (buildSnippet [] query maxLen = []) ∧
    (text ≠ [] → tokenize query = [] →
      buildSnippet text query maxLen = text.take maxLen) ∧
    (text ≠ [] →
      (∀ t ∈ tokenize query, ∀ i : Nat,
        startsWith (List.drop i (lowerStr text)) t = false) →
      buildSnippet text query maxLen = text.take maxLen) := by
  refine ⟨by simp [buildSnippet], ?_, ?_⟩
  · intro h1 h2
    unfold buildSnippet
    rw [if_neg h1]
    simp [h2]
  · intro h1 h2
    unfold buildSnippet
    rw [if_neg h1]
    by_cases h3 : tokenize query = []
    · simp [h3]
    · have h4 : earliest (lowerStr text) (tokenize query) = none := by
        rw [earliest_eq_none_iff]
        intro t ht
        rw [indexOf?_eq_none_iff]
        exact fun i => h2 t ht i
      simp [h3, h4]

/-- Witness for C6: empty text, a token-free query, and a non-matching
query on concrete text. -/
theorem c6_plain_prefix_branches_witness :
    (buildSnippet [] (str "q") 2 = []) ∧
    buildSnippet (str "xyz") (str "") 2 = (str "xyz").take 2 ∧
    buildSnippet (str "xyz") (str "q") 2 = (str "xyz").take 2 :=
  ⟨(c6_plain_prefix_branches (str "xyz") (str "q") 2).1,
   (c6_plain_prefix_branches (str "xyz") (str "") 2).2.1 (by decide) (by decide),
   (c6_plain_prefix_branches (str "xyz") (str "q") 2).2.2 (by decide) (by
     intro t ht i
     have he : tokenize (str "q") = [str "q"] := by decide
     rw [he] at ht
     rcases List.mem_cons.mp ht with rfl | h9
     · exact (indexOf?_eq_none_iff (lowerStr (str "xyz")) (str "q")).mp
         (by decide) i
     · simp at h9)⟩

/-- Counterexample to C4: text "abcdefgh" (length 8 < maxLen 9) with
matching token "h" found at offset 7 > maxLen/3 = 3 gets a leading ellipsis
and only a suffix window of the text, not the entire text without ellipses. -/
theorem c4_short_text_counterexample :
    (str "abcdefgh").length < 9 ∧
    buildSnippet (str "abcdefgh") (str "h") 9 = str "…efg<mark>h</mark>" ∧
    highlight (tokenize (str "h")) (esc (str "abcdefgh")) =
      str "abcdefg<mark>h</mark>" ∧
    buildSnippet (str "abcdefgh") (str "h") 9 ≠
      highlight (tokenize (str "h")) (esc (str "abcdefgh")) := by
  decide

/-- C4 as amended: for every non-empty text shorter than maxLen and query
with a matching token, IF additionally the earliest token offset is at most
maxLen/3 (so the window start is clamped to 0) and every token is free of
ECMAScript SyntaxCharacters (so the escaping step is the identity, as the
first conjunct states, and the highlight patterns are well-formed and
literal — on other tokens the program throws or highlights non-literally,
see C2 and C5), buildSnippet returns the entire text, escaped and
highlighted, with no leading and no trailing ellipsis. -/
theorem c4_full_text_window (text query : JsStr) (maxLen pos : Nat)
    (h1 : text ≠ []) (h2 : text.length < maxLen)
    (h3 : earliest (lowerStr text) (tokenize query) = some pos)
    (h4 : pos ≤ maxLen / 3)
    (h5 : ∀ t ∈ tokenize query, ∀ c ∈ t, isRegexSyntax c = false) :
    (∀ t ∈ tokenize query, escapeTok t = t) ∧
    buildSnippet text query maxLen = highlight (tokenize query) (esc text) := by
  refine ⟨fun t ht => escapeTok_id t (h5 t ht), ?_⟩
  have htok : tokenize query ≠ [] := by
    intro he
    rw [he] at h3
    simp [earliest] at h3
  unfold buildSnippet
  rw [if_neg h1]
  simp only [htok, if_false, h3]
  have hstart : pos - maxLen / 3 = 0 := by omega
  rw [hstart]
  have hstop : min text.length (0 + maxLen) = text.length := by omega
  rw [hstop]
  simp [List.take_length]

/-- Witness for the amended C4 at a concrete early-match input with a
SyntaxCharacter-free token. -/
theorem c4_full_text_window_witness :
    (str "abcdef" ≠ ([] : JsStr)) ∧
    (str "abcdef").length < 9 ∧
    earliest (lowerStr (str "abcdef")) (tokenize (str "a")) = some 0 ∧
    escapeTok (str "a") = str "a" ∧
    buildSnippet (str "abcdef") (str "a") 9 =
      highlight (tokenize (str "a")) (esc (str "abcdef")) :=
  ⟨by decide, by decide, by decide,
   (c4_full_text_window (str "abcdef") (str "a") 9 0
     (by decide) (by decide) (by decide) (by decide) (by decide)).1
       (str "a") (by decide),
   (c4_full_text_window (str "abcdef") (str "a") 9 0
     (by decide) (by decide) (by decide) (by decide) (by decide)).2⟩

/-- Counterexample to C5 as stated (quantifying over every query with a
matching token): at text "x[y", query "[", maxLen 10, the hypotheses of the
claim hold — the single token "[" occurs in the lowercased text at offset 1
— but that token is the unescaped ECMAScript SyntaxCharacter `[` (91):
escapeTok passes it through unchanged, no backslash (92) is inserted, so
the highlight loop hands `new RegExp` the pattern `([)` whose unterminated
character class fails to parse by the ECMAScript pattern grammar. The
program throws inside the highlight loop at this input instead of
returning the windowed snippet the claim asserts. -/
theorem c5_metachar_token_counterexample :
    tokenize (str "[") = [str "["] ∧
    (str "x[y" ≠ ([] : JsStr)) ∧
    startsWith (List.drop 1 (lowerStr (str "x[y"))) (str "[") = true ∧
    earliest (lowerStr (str "x[y")) (tokenize (str "[")) = some 1 ∧
    (91 : Nat) ∈ str "[" ∧
    isRegexSyntax 91 = true ∧
    escapeTok (str "[") = str "[" ∧
    (92 : Nat) ∉ escapeTok (str "[") := by
  decide

/-- C5 as amended: when at least one token matches and every token of the
query is free of ECMAScript SyntaxCharacters — on such tokens the broken
escaping (C2) is the identity, as the first conjunct states, so the
highlight patterns are well-formed and literal — the window offset found by
the loop is the earliest occurrence of any token in the lowercased text (it
is an occurrence of some token and is at most every occurrence of every
token), the window is `slice(max(0, pos - maxLen/3), min(length, start +
maxLen))` of the text, escaped and highlighted, and an ellipsis is prefixed
exactly when the window start is positive and suffixed exactly when the
window end is short of the text length. Nat subtraction realizes
`max(0, ...)`. -/
theorem c5_match_window (text query : JsStr) (maxLen pos : Nat)
    (h1 : text ≠ [])
    (h2 : ∀ t ∈ tokenize query, ∀ c ∈ t, isRegexSyntax c = false)
    (h3 : earliest (lowerStr text) (tokenize query) = some pos) :
    (∀ t ∈ tokenize query, escapeTok t = t) ∧
    (∃ t ∈ tokenize query,
      startsWith (List.drop pos (lowerStr text)) t = true) ∧
    (∀ t ∈ tokenize query, ∀ i : Nat,
      startsWith (List.drop i (lowerStr text)) t = true → pos ≤ i) ∧
    buildSnippet text query maxLen =
      (if 0 < pos - maxLen / 3 then ellipsis else []) ++
      highlight (tokenize query)
        (esc ((text.take (min text.length (pos - maxLen / 3 + maxLen))).drop
          (pos - maxLen / 3))) ++
      (if min text.length (pos - maxLen / 3 + maxLen) < text.length
        then ellipsis else []) := by
  refine ⟨fun t ht => escapeTok_id t (h2 t ht),
    earliest_some_occurrence _ _ pos h3,
    earliest_some_min _ _ pos h3, ?_⟩
  have htok : tokenize query ≠ [] := by
    intro he
    rw [he] at h3
    simp [earliest] at h3
  unfold buildSnippet
  rw [if_neg h1]
  simp only [htok, if_false, h3]

/-- Witness for the amended C5 at a concrete matching input with a
SyntaxCharacter-free token. -/
theorem c5_match_window_witness :
    escapeTok (str "h") = str "h" ∧
    (∃ t ∈ tokenize (str "h"),
      startsWith (List.drop 7 (lowerStr (str "abcdefgh"))) t = true) ∧
    buildSnippet (str "abcdefgh") (str "h") 9 =
      (if 0 < 7 - 9 / 3 then ellipsis else []) ++
      highlight (tokenize (str "h"))
        (esc (((str "abcdefgh").take
          (min (str "abcdefgh").length (7 - 9 / 3 + 9))).drop (7 - 9 / 3))) ++
      (if min (str "abcdefgh").length (7 - 9 / 3 + 9) < (str "abcdefgh").length
        then ellipsis else []) :=
  ⟨(c5_match_window (str "abcdefgh") (str "h") 9 7
      (by decide) (by decide) (by decide)).1 (str "h") (by decide),
   (c5_match_window (str "abcdefgh") (str "h") 9 7
      (by decide) (by decide) (by decide)).2.1,
   (c5_match_window (str "abcdefgh") (str "h") 9 7
      (by decide) (by decide) (by decide)).2.2.2⟩

/-- C9: for a query surviving the length guard, doSearch renders exactly the
first 20 entries of the stable descending sort of the index hits: the
rendered list is that truncation (hence at most 20 entries however many
hits there are), the sorted list is pairwise descending in score, and for
every score value the hits of that score keep the relative order the index
returned them in (stability; instantiated over all score values this also
makes the sorted list a permutation of the hits). -/
theorem c9_ranking_sorted_stable_top20 (searchIdx : JsStr → List Hit)
    (q : JsStr) (h : 2 ≤ (jsTrim q).length) :
    doSearch searchIdx q = SearchOutcome.rendered
      ((sortByScoreDesc (searchIdx (jsTrim q))).take 20) (jsTrim q) ∧
    ((sortByScoreDesc (searchIdx (jsTrim q))).take 20).length ≤ 20 ∧
    List.Pairwise (fun a b : Hit => b.score ≤ a.score)
      (sortByScoreDesc (searchIdx (jsTrim q))) ∧
    ∀ s : Int,
      (sortByScoreDesc (searchIdx (jsTrim q))).filter (fun x => x.score == s) =
        (searchIdx (jsTrim q)).filter (fun x => x.score == s) := by
  refine ⟨?_, ?_, sortByScoreDesc_pairwise _,
    fun s => sortByScoreDesc_filter s _⟩
  · unfold doSearch
    have h2 : ¬ (jsTrim q).length < 2 := by omega
    simp [h2]
  · rw [List.length_take]
    omega

/-- Witness for C9 at a concrete index with a tie: hits with refs a, b, c
and scores 1, 2, 2 render as b, c, a (descending, tie in index order). -/
theorem c9_ranking_sorted_stable_top20_witness :
    doSearch (fun _ => [⟨str "a", 1⟩, ⟨str "b", 2⟩, ⟨str "c", 2⟩]) (str "hi") =
      SearchOutcome.rendered
        ((sortByScoreDesc ((fun _ : JsStr =>
          [⟨str "a", (1 : Int)⟩, ⟨str "b", 2⟩, ⟨str "c", 2⟩])
            (jsTrim (str "hi")))).take 20)
        (jsTrim (str "hi")) ∧
    ((sortByScoreDesc ((fun _ : JsStr =>
      [⟨str "a", (1 : Int)⟩, ⟨str "b", 2⟩, ⟨str "c", 2⟩])
        (jsTrim (str "hi")))).take 20).length ≤ 20 ∧
    List.Pairwise (fun a b : Hit => b.score ≤ a.score)
      (sortByScoreDesc ((fun _ : JsStr =>
        [⟨str "a", (1 : Int)⟩, ⟨str "b", 2⟩, ⟨str "c", 2⟩])
          (jsTrim (str "hi")))) ∧
    (sortByScoreDesc ((fun _ : JsStr =>
      [⟨str "a", (1 : Int)⟩, ⟨str "b", 2⟩, ⟨str "c", 2⟩])
        (jsTrim (str "hi")))).filter (fun x => x.score == 2) =
      ((fun _ : JsStr => [⟨str "a", (1 : Int)⟩, ⟨str "b", 2⟩, ⟨str "c", 2⟩])
        (jsTrim (str "hi"))).filter (fun x => x.score == 2) :=
  ⟨(c9_ranking_sorted_stable_top20 (fun _ =>
      [⟨str "a", 1⟩, ⟨str "b", 2⟩, ⟨str "c", 2⟩]) (str "hi") (by decide)).1,
   (c9_ranking_sorted_stable_top20 (fun _ =>
      [⟨str "a", 1⟩, ⟨str "b", 2⟩, ⟨str "c", 2⟩]) (str "hi") (by decide)).2.1,
   (c9_ranking_sorted_stable_top20 (fun _ =>
      [⟨str "a", 1⟩, ⟨str "b", 2⟩, ⟨str "c", 2⟩]) (str "hi") (by decide)).2.2.1,
   (c9_ranking_sorted_stable_top20 (fun _ =>
      [⟨str "a", 1⟩, ⟨str "b", 2⟩, ⟨str "c", 2⟩]) (str "hi") (by decide)).2.2.2 2⟩



